import Mathlib

/-!
Verification development for the baseN (base64 / base32hex / base16) codec of
this repository (`BaseNTransformer`, `EncodeNormalizer`, `DecodeNormalizer`,
`encodeBase64` .. `decodeHex`).

The C++ code builds the codec from boost iterator adaptors
(`transform_width`, `baseX_from_binary`, `binary_from_baseX`) composed with
the repository's two normalizer iterators.  The shallow embedding below
models the same pipeline over `List Nat` (byte buffers) and `List Char`
(encoded text):

* the virtual bitstream of `transform_width` is modelled by `toBits` /
  `fromBits` / `chunksN` (MSB-first concatenation, sliced into fixed-width
  groups, with the encode direction zero-filling the last group exactly as
  `transform_width`'s end-of-sequence zero fill does);
* `DecodeNormalizer` (source lines 140-176) is modelled positionally by
  `derefs`: position 0 is dereferenced as-is, `operator++` advances and then
  skips whitespace, and `in_pad_` becomes true exactly when the iterator
  lands on `base_beginpad_`;
* the trailing-padding scan of `decode` (source lines 247-261) is `padScan`;
* the `(padchars * BitsPerChunk + 7) & ~7` computation, the padding-length
  check, the canonical (all-zero bits under padding) check, and the final
  truncation (source lines 262-291) appear verbatim in `decodeProc`.

When the decoded chunk bits do not fill a whole number of bytes,
`transform_width` pulls one character past the end of the input string; that
dereference reads the string's terminating NUL, which is in no alphabet, so
`binary_from_baseX` raises the invalid-character `dataflow_exception`
(converted to `BadValue` by `decode`).  `decodeProc` models this with the
explicit `bits.length % 8 ≠ 0` invalid-character failure.

The C++ `decode` reports all failures as `isc::BadValue` with distinct
messages; the model distinguishes them by kind (`DecodeError`).
-/

namespace Isc

/-- The six C-locale `isspace` characters, as used by `DecodeNormalizer` and
the trailing-padding scan. -/
def isSpaceB (c : Char) : Bool :=
  c = ' ' || c = '\t' || c = '\n' || c = Char.ofNat 11 || c = Char.ofNat 12 || c = '\r'

/-- The padding character (BASE_PADDING_CHAR, source line 106). -/
def BASE_PADDING_CHAR : Char := '='

/-- The `w`-bit MSB-first bit vector of `v`: the contribution of one input
symbol to `transform_width`'s virtual bitstream. -/
def toBits : Nat → Nat → List Bool
  | 0, _ => []
  | w + 1, v => toBits w (v / 2) ++ [decide (v % 2 = 1)]

/-- Value of an MSB-first bit list (how `transform_width` assembles an output
symbol from consecutive bits). -/
def fromBits (l : List Bool) : Nat :=
  l.foldl (fun a b => 2 * a + (if b then 1 else 0)) 0

/-- Slice a list into consecutive groups of `n` elements (fuel-indexed so that
it is structurally recursive; `chunksN` supplies sufficient fuel). -/
def chunksGo {α : Type} (n : Nat) : Nat → List α → List (List α)
  | _, [] => []
  | 0, _ :: _ => []
  | fuel + 1, a :: as => (a :: as).take n :: chunksGo n fuel ((a :: as).drop n)

/-- Slice a list into consecutive groups of `n` elements: the grouping of the
virtual bitstream done by `transform_width`. -/
def chunksN {α : Type} (n : Nat) (bs : List α) : List (List α) :=
  chunksGo n bs.length bs

/-- Number of leading whitespace characters of a list. -/
def wsCount : List Char → Nat
  | [] => 0
  | c :: cs => if isSpaceB c then wsCount cs + 1 else 0

/-- The position reached by `DecodeNormalizer::operator++` from position `i`:
advance once, then skip whitespace (source lines 150-154). -/
def wsSkip (s : List Char) (i : Nat) : Nat :=
  i + 1 + wsCount (s.drop (i + 1))

/-- The characters produced by iterating `DecodeNormalizer` starting at
position `i` with padding flag `inPad`; `bp` is `base_beginpad_` as an index,
`zc` is `base_zero_code_`.  Mirrors source lines 150-166: dereference the
current position (substituting `zc` for `=` only when `in_pad_` is set),
advance skipping whitespace, and set `in_pad_` exactly when the new position
equals `base_beginpad_`.  Fuel-indexed; positions strictly increase, so
`s.length` fuel suffices. -/
def normGo (s : List Char) (bp : Nat) (zc : Char) : Nat → Nat → Bool → List Char
  | 0, _, _ => []
  | fuel + 1, i, inPad =>
    if h : i < s.length then
      (if inPad ∧ s.get ⟨i, h⟩ = BASE_PADDING_CHAR then zc else s.get ⟨i, h⟩) ::
        normGo s bp zc fuel (wsSkip s i) (inPad || wsSkip s i == bp)
    else []

/-- All characters fed to the `binary_from_baseX` mapping table during one
decode: the `DecodeNormalizer` iteration from `input.begin()` (dereferenced
as-is, before any `operator++`) until the underlying iterator reaches
`input.end()`. -/
def derefs (s : List Char) (bp : Nat) (zc : Char) : List Char :=
  normGo s bp zc s.length 0 false

/-- Map each decoded character to its chunk value through the alphabet table;
`none` if any character is outside the table (the `dataflow_exception` raised
by `binary_from_baseX`). -/
def mapVals (decTab : Char → Option Nat) : List Char → Option (List Nat)
  | [] => some []
  | c :: cs =>
    match decTab c, mapVals decTab cs with
    | some v, some vs => some (v :: vs)
    | _, _ => none

/-- Round up to the next multiple of 8: the computation written as
`(x + 7) & ~7` at source line 262. -/
def roundUpByte (x : Nat) : Nat := (x + 7) / 8 * 8

/-- The constant `BITS_PER_GROUP` (source lines 197-198): lcm of
`BitsPerChunk` and 8. -/
def BITS_PER_GROUP (bitsPerChunk : Nat) : Nat := Nat.lcm bitsPerChunk 8

/-- The constant `MAX_PADDING_CHARS` (source lines 209-211). -/
def MAX_PADDING_CHARS (bitsPerChunk : Nat) : Nat :=
  BITS_PER_GROUP bitsPerChunk / bitsPerChunk -
    (8 / bitsPerChunk + if 8 % bitsPerChunk = 0 then 0 else 1)

/-- The trailing-padding scan of `decode` (source lines 247-261), run over the
reversed input: count padding characters, failing as soon as the count
exceeds `maxP`; skip whitespace; stop at the first other character.  Returns
the padding count together with the unconsumed (still reversed) remainder,
whose length is the index `srit.base()` (`base_beginpad_`) in forward
coordinates. -/
def padScan (maxP : Nat) : Nat → List Char → Option (Nat × List Char)
  | pc, [] => some (pc, [])
  | pc, c :: rest =>
    if c = BASE_PADDING_CHAR then
      if maxP < pc + 1 then none else padScan maxP (pc + 1) rest
    else if isSpaceB c then padScan maxP pc rest
    else some (pc, c :: rest)

/-- The four decode failure kinds of the error taxonomy; the C++ code reports
each as `isc::BadValue` with a distinct message. -/
inductive DecodeError where
  | excessPadding
  | invalidPaddingLength
  | nonCanonicalPadding
  | invalidCharacter
deriving DecidableEq, Repr

/-- Encode (`BaseNTransformer::encode`, source lines 216-234).  The output length
`len` is computed from the input bit count rounded up to a whole number of
groups; the encoder chain (`EncodeNormalizer` → `transform_width` →
`baseX_from_binary`) emits one character per `N`-bit chunk of the zero-filled
bitstream; literal `=` padding brings the text up to `len`. -/
def encodeN (N : Nat) (encTab : Nat → Char) (binary : List Nat) : List Char :=
  let bits0 := binary.length * 8
  let bits := if bits0 % BITS_PER_GROUP N > 0
    then bits0 + (BITS_PER_GROUP N - bits0 % BITS_PER_GROUP N) else bits0
  let len := bits / N
  let stream := binary.flatMap (toBits 8)
  let padded := stream ++ List.replicate ((N - stream.length % N) % N) false
  let chars := (chunksN N padded).map (fun c => encTab (fromBits c))
  chars ++ List.replicate (len - chars.length) BASE_PADDING_CHAR

/-- Decode (`BaseNTransformer::decode`, source lines 236-291) with the out-parameter
`result` made explicit: the returned pair is (raised error if any, contents
of `result` when control returns to the caller).  Errors raised before
`result.assign` leave the caller's buffer untouched; the non-canonical
padding error is raised after `result` has been overwritten with the raw
decoded bytes; on success `result` is truncated by `padbytes`.
(On the invalid-character path the C++ buffer state is unspecified,
mid-`assign`; the model conservatively returns the initial buffer there —
no claim depends on it.) -/
def decodeProc (N : Nat) (zc : Char) (decTab : Char → Option Nat)
    (input : List Char) (result : List Nat) : Option DecodeError × List Nat :=
  match padScan (MAX_PADDING_CHARS N) 0 input.reverse with
  | none => (some .excessPadding, result)
  | some (padchars, rest) =>
    let padbits := roundUpByte (padchars * N)
    if N * (padchars + 1) < padbits then (some .invalidPaddingLength, result)
    else
      let padbytes := padbits / 8
      match mapVals decTab (derefs input rest.length zc) with
      | none => (some .invalidCharacter, result)
      | some vs =>
        let bits := vs.flatMap (toBits N)
        if bits.length % 8 ≠ 0 then (some .invalidCharacter, result)
        else
          let raw := (chunksN 8 bits).map fromBits
          if (raw.drop (raw.length - padbytes)).any (fun x => x != 0)
          then (some .nonCanonicalPadding, raw)
          else (none, raw.take (raw.length - padbytes))

/-- Functional view of `decode`: the error raised, or the decoded buffer. -/
def decodeN (N : Nat) (zc : Char) (decTab : Char → Option Nat)
    (input : List Char) : Except DecodeError (List Nat) :=
  match decodeProc N zc decTab input [] with
  | (some e, _) => .error e
  | (none, r) => .ok r

/-- Modelled from the spec: the base64 alphabet `A–Z a–z 0–9 + /` (§6).  The
boost `base64_from_binary` / `binary_from_base64` mapping tables used by the
source are third-party headers not present under src. -/
def base64Alphabet : List Char :=
  "ABCDEFGHIJKLMNOPQRSTUVWXYZabcdefghijklmnopqrstuvwxyz0123456789+/".toList

/-- Value → character for base64 (total on 0..63). -/
def base64EncTab (v : Nat) : Char := base64Alphabet.getD v '?'

/-- Character → value for base64; `none` outside the alphabet. -/
def base64DecTab (c : Char) : Option Nat :=
  base64Alphabet.findIdx? (fun x => x == c)

/-- Modelled from the spec: the base32hex alphabet `0–9 A–V` (§6).  The
repository's `base32hex_from_binary` / `binary_from_base32hex` headers are
not present under src. -/
def base32hexAlphabet : List Char := "0123456789ABCDEFGHIJKLMNOPQRSTUV".toList

/-- Value → character for base32hex (total on 0..31). -/
def base32hexEncTab (v : Nat) : Char := base32hexAlphabet.getD v '?'

/-- Character → value for base32hex; `none` outside the alphabet. -/
def base32hexDecTab (c : Char) : Option Nat :=
  base32hexAlphabet.findIdx? (fun x => x == c)

/-- Modelled from the spec: the base16 alphabet `0–9 A–F` (§6); encode emits
upper case.  The repository's `base16_from_binary` / `binary_from_base16`
headers are not present under src. -/
def base16Alphabet : List Char := "0123456789ABCDEF".toList

/-- Value → character for base16 (total on 0..15). -/
def base16EncTab (v : Nat) : Char := base16Alphabet.getD v '?'

/-- Modelled from the spec: character → value for base16, case-insensitive on
decode (§8: lower-case hex input accepted). -/
def base16DecTab (c : Char) : Option Nat :=
  base16Alphabet.findIdx? (fun x => x == c.toUpper)

/-- The public `encodeBase64` (source lines 328-331): `Base64Transformer` has
`BitsPerChunk = 6`, zero code `A`. -/
def encodeBase64 (binary : List Nat) : List Char := encodeN 6 base64EncTab binary

/-- The public `decodeBase64` (source lines 333-336). -/
def decodeBase64 (input : List Char) : Except DecodeError (List Nat) :=
  decodeN 6 'A' base64DecTab input

/-- The public `encodeBase32Hex` (source lines 338-341): `Base32HexTransformer` has
`BitsPerChunk = 5`, zero code `0`. -/
def encodeBase32Hex (binary : List Nat) : List Char := encodeN 5 base32hexEncTab binary

/-- The public `decodeBase32Hex` (source lines 343-346). -/
def decodeBase32Hex (input : List Char) : Except DecodeError (List Nat) :=
  decodeN 5 '0' base32hexDecTab input

/-- The public `encodeHex` (source lines 348-351): `Base16Transformer` has
`BitsPerChunk = 4`, zero code `0`. -/
def encodeHex (binary : List Nat) : List Char := encodeN 4 base16EncTab binary

/-- The public `decodeHex` (source lines 353-356). -/
def decodeHex (input : List Char) : Except DecodeError (List Nat) :=
  decodeN 4 '0' base16DecTab input

deriving instance DecidableEq for Except

/-! ### Bit-vector lemmas -/

theorem toBits_length (w v : Nat) : (toBits w v).length = w := by
  induction w generalizing v with
  | zero => rfl
  | succ w ih => simp [toBits, ih]

theorem fromBits_append_singleton (l : List Bool) (b : Bool) :
    fromBits (l ++ [b]) = 2 * fromBits l + (if b then 1 else 0) := by
  simp [fromBits, List.foldl_append]

theorem mod_double (m v : Nat) (hm : 0 < m) :
    v % (2 * m) = 2 * (v / 2 % m) + v % 2 := by
  conv_lhs => rw [← Nat.div_add_mod v 2]
  rw [Nat.add_mod, Nat.mul_mod_mul_left]
  have h2 : v % 2 < 2 := Nat.mod_lt _ (by omega)
  have hmod : v % 2 % (2 * m) = v % 2 :=
    Nat.mod_eq_of_lt (by omega)
  rw [hmod]
  have hlt : 2 * (v / 2 % m) + v % 2 < 2 * m := by
    have := Nat.mod_lt (v / 2) hm
    omega
  rw [Nat.mod_eq_of_lt hlt]

theorem fromBits_toBits (w v : Nat) : fromBits (toBits w v) = v % 2 ^ w := by
  induction w generalizing v with
  | zero => simp [toBits, fromBits, Nat.mod_one]
  | succ w ih =>
    rw [toBits, fromBits_append_singleton, ih]
    have h2 : v % 2 = 0 ∨ v % 2 = 1 := Nat.mod_two_eq_zero_or_one v
    have hpow : (2 : Nat) ^ (w + 1) = 2 * 2 ^ w := by ring
    rw [hpow, mod_double _ _ (Nat.pos_pow_of_pos w (by omega))]
    rcases h2 with h | h <;> simp [h]

theorem toBits_fromBits (l : List Bool) : toBits l.length (fromBits l) = l := by
  induction l using List.reverseRecOn with
  | nil => rfl
  | append_singleton l b ih =>
    rw [fromBits_append_singleton]
    have hlen : (l ++ [b]).length = l.length + 1 := by simp
    rw [hlen, toBits]
    have hdiv : (2 * fromBits l + (if b then 1 else 0)) / 2 = fromBits l := by
      cases b <;> (simp; try omega)
    have hmod : (2 * fromBits l + (if b then 1 else 0)) % 2 = (if b then 1 else 0) := by
      cases b <;> (simp; try omega)
    rw [hdiv, hmod, ih]
    cases b <;> simp

theorem toBits_fromBits_of_length {l : List Bool} {w : Nat} (h : l.length = w) :
    toBits w (fromBits l) = l := h ▸ toBits_fromBits l

theorem fromBits_lt (l : List Bool) : fromBits l < 2 ^ l.length := by
  induction l using List.reverseRecOn with
  | nil => simp [fromBits]
  | append_singleton l b ih =>
    rw [fromBits_append_singleton]
    have : (2 : Nat) ^ (l ++ [b]).length = 2 * 2 ^ l.length := by
      simp [List.length_append]; ring
    rw [this]
    cases b <;> simp <;> omega

theorem toBits_zero (w : Nat) : toBits w 0 = List.replicate w false := by
  induction w with
  | zero => rfl
  | succ w ih =>
    rw [toBits, Nat.zero_div, ih]
    simp [List.replicate_succ']

theorem fromBits_replicate_false (k : Nat) : fromBits (List.replicate k false) = 0 := by
  induction k with
  | zero => rfl
  | succ k ih =>
    rw [List.replicate_succ']
    rw [fromBits_append_singleton, ih]
    simp

theorem flatMap_toBits_length (w : Nat) (l : List Nat) :
    (l.flatMap (toBits w)).length = l.length * w := by
  induction l with
  | nil => simp
  | cons x xs ih => simp [List.flatMap_cons, ih, toBits_length]; ring

theorem flatMap_toBits_replicate_zero (N k : Nat) :
    (List.replicate k 0).flatMap (toBits N) = List.replicate (k * N) false := by
  induction k with
  | zero => simp
  | succ k ih =>
    rw [List.replicate_succ, List.flatMap_cons, ih, toBits_zero,
      ← List.replicate_add]
    congr 1
    ring

/-! ### Chunking lemmas -/

theorem chunksGo_nil {α : Type} (n fuel : Nat) : chunksGo n fuel ([] : List α) = [] := by
  cases fuel <;> rfl

theorem chunksGo_succ {α : Type} (n fuel : Nat) (a : α) (as : List α) :
    chunksGo n (fuel + 1) (a :: as) =
      (a :: as).take n :: chunksGo n fuel ((a :: as).drop n) := rfl

theorem chunksGo_fuel {α : Type} {n : Nat} (hn : 0 < n) :
    ∀ (fuel fuel' : Nat) (bs : List α), bs.length ≤ fuel → bs.length ≤ fuel' →
      chunksGo n fuel bs = chunksGo n fuel' bs := by
  intro fuel
  induction fuel with
  | zero =>
    intro fuel' bs h _
    have : bs = [] := List.eq_nil_of_length_eq_zero (by omega)
    subst this
    rw [chunksGo_nil, chunksGo_nil]
  | succ fuel ih =>
    intro fuel' bs h h'
    cases bs with
    | nil => rw [chunksGo_nil, chunksGo_nil]
    | cons a as =>
      cases fuel' with
      | zero => simp at h'
      | succ fuel' =>
        rw [chunksGo_succ, chunksGo_succ]
        congr 1
        apply ih
        · simp only [List.length_drop, List.length_cons]
          simp at h
          omega
        · simp only [List.length_drop, List.length_cons]
          simp at h'
          omega

theorem chunksN_cons_block {α : Type} {n : Nat} (hn : 0 < n) (bs : List α)
    (hlen : n ≤ bs.length) :
    chunksN n bs = bs.take n :: chunksN n (bs.drop n) := by
  unfold chunksN
  cases bs with
  | nil => simp at hlen; omega
  | cons a as =>
    have hfe : (a :: as).length = ((a :: as).length - 1) + 1 := by simp
    rw [hfe, chunksGo_succ]
    congr 1
    apply chunksGo_fuel hn
    · simp only [List.length_drop]
      omega
    · exact Nat.le_refl _

theorem chunksN_join {α : Type} {n : Nat} (hn : 0 < n) (bs : List α) :
    (chunksN n bs).flatMap id = bs := by
  have aux : ∀ (fuel : Nat) (l : List α), l.length ≤ fuel →
      (chunksGo n fuel l).flatMap id = l := by
    intro fuel
    induction fuel with
    | zero =>
      intro l h
      have : l = [] := List.eq_nil_of_length_eq_zero (by omega)
      subst this
      rw [chunksGo_nil]; rfl
    | succ fuel ih =>
      intro l h
      cases l with
      | nil => rw [chunksGo_nil]; rfl
      | cons a as =>
        rw [chunksGo_succ, List.flatMap_cons, ih]
        · simp [List.take_append_drop]
        · simp only [List.length_drop, List.length_cons]
          simp at h
          omega
  exact aux _ _ (Nat.le_refl _)

theorem chunksN_length_mem {α : Type} {n : Nat} (hn : 0 < n) (bs : List α)
    (hdvd : n ∣ bs.length) : ∀ c ∈ chunksN n bs, c.length = n := by
  have aux : ∀ (fuel : Nat) (l : List α), l.length ≤ fuel → n ∣ l.length →
      ∀ c ∈ chunksGo n fuel l, c.length = n := by
    intro fuel
    induction fuel with
    | zero =>
      intro l h _
      have : l = [] := List.eq_nil_of_length_eq_zero (by omega)
      subst this
      rw [chunksGo_nil]
      intro c hc
      simp at hc
    | succ fuel ih =>
      intro l h hd
      cases l with
      | nil =>
        rw [chunksGo_nil]
        intro c hc
        simp at hc
      | cons a as =>
        rw [chunksGo_succ]
        intro c hc
        rcases List.mem_cons.mp hc with hc | hc
        · subst hc
          have hle : n ≤ (a :: as).length := Nat.le_of_dvd (by simp) hd
          simp only [List.length_cons] at hle
          simp [List.length_take]
          omega
        · refine ih _ ?_ ?_ c hc
          · simp only [List.length_drop, List.length_cons]
            simp at h
            omega
          · simp only [List.length_drop]
            exact Nat.dvd_sub' hd (dvd_refl n)
  exact aux _ _ (Nat.le_refl _) hdvd

theorem chunksN_count {α : Type} {n : Nat} (hn : 0 < n) (bs : List α) :
    (chunksN n bs).length = (bs.length + n - 1) / n := by
  have aux : ∀ (fuel : Nat) (l : List α), l.length ≤ fuel →
      (chunksGo n fuel l).length = (l.length + n - 1) / n := by
    intro fuel
    induction fuel with
    | zero =>
      intro l h
      have : l = [] := List.eq_nil_of_length_eq_zero (by omega)
      subst this
      rw [chunksGo_nil]
      simp [Nat.div_eq_of_lt (by omega : n - 1 < n)]
    | succ fuel ih =>
      intro l h
      cases l with
      | nil =>
        rw [chunksGo_nil]
        simp [Nat.div_eq_of_lt (by omega : n - 1 < n)]
      | cons a as =>
        rw [chunksGo_succ]
        simp only [List.length_cons] at h
        simp only [List.length_cons]
        rw [ih _ (by simp only [List.length_drop, List.length_cons]; omega)]
        simp only [List.length_drop, List.length_cons]
        rcases le_or_lt (as.length + 1) n with hle | hlt
        · have h0 : as.length + 1 - n = 0 := by omega
          rw [h0]
          have h1 : (0 + n - 1) / n = 0 := by
            apply Nat.div_eq_of_lt
            omega
          have h2 : (as.length + 1 + n - 1) / n = 1 := by
            apply Nat.div_eq_of_lt_le <;> omega
          omega
        · have h1 : as.length + 1 - n + n - 1 = as.length := by omega
          have h2 : as.length + 1 + n - 1 = as.length + n := by omega
          rw [h1, h2, Nat.add_div_right _ hn]
  exact aux _ _ (Nat.le_refl _)

theorem chunksN_append {α : Type} {n : Nat} (hn : 0 < n) (a b : List α)
    (ha : n ∣ a.length) : chunksN n (a ++ b) = chunksN n a ++ chunksN n b := by
  obtain ⟨k, hk⟩ := ha
  induction k generalizing a with
  | zero =>
    have : a = [] := List.eq_nil_of_length_eq_zero (by omega)
    subst this
    simp [chunksN, chunksGo_nil]
  | succ k ih =>
    have hna : n ≤ a.length := by
      rw [hk]
      calc n = n * 1 := by ring
        _ ≤ n * (k + 1) := Nat.mul_le_mul_left n (by omega)
    have hab : n ≤ (a ++ b).length := by
      simp only [List.length_append]
      omega
    rw [chunksN_cons_block hn _ hab, chunksN_cons_block hn a hna,
      List.take_append_of_le_length hna, List.drop_append_of_le_length hna]
    rw [List.cons_append]
    congr 1
    apply ih
    simp only [List.length_drop]
    have hexp : n * (k + 1) = n * k + n := by ring
    omega

theorem chunksN_single {α : Type} {n : Nat} (hn : 0 < n) (p : List α)
    (hp : p.length = n) : chunksN n p = [p] := by
  rw [chunksN_cons_block hn p (by omega)]
  have h1 : p.take n = p := by
    rw [← hp]
    exact List.take_length p
  have h2 : p.drop n = [] := by
    apply List.eq_nil_of_length_eq_zero
    simp [hp]
  rw [h1, h2]
  simp [chunksN, chunksGo_nil]

theorem chunksN_blocks {α : Type} {n : Nat} (hn : 0 < n) (l : List (List α))
    (hl : ∀ p ∈ l, p.length = n) : chunksN n (l.flatMap id) = l := by
  induction l with
  | nil => simp [chunksN, chunksGo_nil]
  | cons p rest ih =>
    rw [List.flatMap_cons]
    simp only [id_eq]
    have hp : p.length = n := hl p (by simp)
    rw [chunksN_append hn _ _ (by rw [hp])]
    rw [chunksN_single hn p hp, ih (fun q hq => hl q (by simp [hq]))]
    rfl

theorem chunksN_replicate_false (k : Nat) :
    chunksN 8 (List.replicate (8 * k) false) = List.replicate k (List.replicate 8 false) := by
  induction k with
  | zero => simp [chunksN, chunksGo_nil]
  | succ k ih =>
    have h1 : 8 * (k + 1) = 8 + 8 * k := by ring
    rw [h1, List.replicate_add, chunksN_append (by omega) _ _ (by simp),
      chunksN_single (by omega) _ (by simp), ih]
    rw [List.replicate_succ]
    rfl

/-! ### padScan lemmas -/

theorem padScan_cons_pad (maxP pc : Nat) (rest : List Char) :
    padScan maxP pc (BASE_PADDING_CHAR :: rest) =
      if maxP < pc + 1 then none else padScan maxP (pc + 1) rest := by
  simp [padScan]

theorem padScan_cons_ws {c : Char} (hc : c ≠ BASE_PADDING_CHAR)
    (hw : isSpaceB c = true) (maxP pc : Nat) (rest : List Char) :
    padScan maxP pc (c :: rest) = padScan maxP pc rest := by
  simp [padScan, hc, hw]

theorem padScan_cons_stop {c : Char} (hc : c ≠ BASE_PADDING_CHAR)
    (hw : isSpaceB c = false) (maxP pc : Nat) (rest : List Char) :
    padScan maxP pc (c :: rest) = some (pc, c :: rest) := by
  simp [padScan, hc, hw]

theorem padScan_replicate (maxP : Nat) (l : List Char) :
    ∀ (k a : Nat), a + k ≤ maxP →
      padScan maxP a (List.replicate k BASE_PADDING_CHAR ++ l) =
        padScan maxP (a + k) l := by
  intro k
  induction k with
  | zero => intro a _; simp
  | succ k ih =>
    intro a h
    rw [List.replicate_succ, List.cons_append, padScan_cons_pad,
      if_neg (by omega), ih (a + 1) (by omega)]
    congr 1
    omega

/-- The characters consumed by the trailing-padding scan are all padding or
whitespace, and the input splits as consumed ++ remainder. -/
theorem padScan_consumed (maxP : Nat) :
    ∀ (l : List Char) (a pc : Nat) (rest : List Char),
      padScan maxP a l = some (pc, rest) →
      ∃ pre, l = pre ++ rest ∧ ∀ c ∈ pre, c = BASE_PADDING_CHAR ∨ isSpaceB c = true := by
  intro l
  induction l with
  | nil =>
    intro a pc rest h
    simp [padScan] at h
    exact ⟨[], by simp [h.2.symm], by simp⟩
  | cons c cs ih =>
    intro a pc rest h
    by_cases hc : c = BASE_PADDING_CHAR
    · subst hc
      rw [padScan_cons_pad] at h
      by_cases hm : maxP < a + 1
      · rw [if_pos hm] at h; exact absurd h (by simp)
      · rw [if_neg hm] at h
        obtain ⟨pre, hpre, hall⟩ := ih _ _ _ h
        refine ⟨BASE_PADDING_CHAR :: pre, by simp [hpre], ?_⟩
        intro x hx
        rcases List.mem_cons.mp hx with hx | hx
        · exact Or.inl hx
        · exact hall x hx
    · by_cases hw : isSpaceB c = true
      · rw [padScan_cons_ws hc hw] at h
        obtain ⟨pre, hpre, hall⟩ := ih _ _ _ h
        refine ⟨c :: pre, by simp [hpre], ?_⟩
        intro x hx
        rcases List.mem_cons.mp hx with hx | hx
        · exact Or.inr (hx ▸ hw)
        · exact hall x hx
      · rw [padScan_cons_stop hc (by simpa using hw)] at h
        simp at h
        exact ⟨[], by simp [h.2.symm], by simp⟩

/-- The scan fails exactly when the trailing run of padding and whitespace
holds more than `maxP` padding characters. -/
theorem padScan_none_iff (maxP : Nat) :
    ∀ (l : List Char) (a : Nat), a ≤ maxP →
      (padScan maxP a l = none ↔
        maxP < a + (l.takeWhile
          (fun c => c == BASE_PADDING_CHAR || isSpaceB c)).count BASE_PADDING_CHAR) := by
  intro l
  induction l with
  | nil =>
    intro a ha
    simp [padScan]
    omega
  | cons c cs ih =>
    intro a ha
    by_cases hc : c = BASE_PADDING_CHAR
    · subst hc
      rw [padScan_cons_pad,
        List.takeWhile_cons_of_pos (by simp), List.count_cons]
      by_cases hm : maxP < a + 1
      · rw [if_pos hm]
        simp only [beq_self_eq_true, if_pos]
        constructor
        · intro _; omega
        · intro _; trivial
      · rw [if_neg hm, ih (a + 1) (by omega)]
        simp only [beq_self_eq_true, if_pos]
        omega
    · by_cases hw : isSpaceB c = true
      · rw [padScan_cons_ws hc hw,
          List.takeWhile_cons_of_pos (by simp [hw]), List.count_cons,
          ih a ha]
        have : (c == BASE_PADDING_CHAR) = false := by
          simp [hc]
        rw [this]
        simp
      · rw [padScan_cons_stop hc (by simpa using hw),
          List.takeWhile_cons_of_neg (by simp [hc, hw])]
        simp
        omega

/-! ### mapVals lemmas -/

theorem mapVals_append_some {d : Char → Option Nat} :
    ∀ {a b : List Char} {x y : List Nat},
      mapVals d a = some x → mapVals d b = some y →
      mapVals d (a ++ b) = some (x ++ y) := by
  intro a
  induction a with
  | nil =>
    intro b x y hx hy
    simp [mapVals] at hx
    subst hx
    simpa using hy
  | cons c cs ih =>
    intro b x y hx hy
    rw [List.cons_append]
    rw [mapVals] at hx ⊢
    rcases hd : d c with _ | v
    · rw [hd] at hx; exact absurd hx (by simp)
    · rw [hd] at hx
      rcases hm : mapVals d cs with _ | vs
      · rw [hm] at hx; exact absurd hx (by simp)
      · rw [hm] at hx
        simp at hx
        rw [ih hm hy]
        simp [hx.symm]

theorem mapVals_map_enc {d : Char → Option Nat} {g : List Bool → Char}
    {f : List Bool → Nat} :
    ∀ {l : List (List Bool)}, (∀ x ∈ l, d (g x) = some (f x)) →
      mapVals d (l.map g) = some (l.map f) := by
  intro l
  induction l with
  | nil => intro _; rfl
  | cons x xs ih =>
    intro h
    rw [List.map_cons, List.map_cons, mapVals,
      h x (by simp), ih (fun y hy => h y (by simp [hy]))]

theorem mapVals_replicate {d : Char → Option Nat} {zc : Char} {v : Nat}
    (hz : d zc = some v) (k : Nat) :
    mapVals d (List.replicate k zc) = some (List.replicate k v) := by
  induction k with
  | zero => rfl
  | succ k ih =>
    rw [List.replicate_succ, List.replicate_succ, mapVals, hz, ih]

theorem mapVals_mem_some {d : Char → Option Nat} :
    ∀ {l : List Char} {vs : List Nat}, mapVals d l = some vs →
      ∀ c ∈ l, ∃ v, d c = some v := by
  intro l
  induction l with
  | nil => intro vs _ c hc; simp at hc
  | cons x xs ih =>
    intro vs h c hc
    rw [mapVals] at h
    rcases hd : d x with _ | v
    · rw [hd] at h; exact absurd h (by simp)
    · rcases hm : mapVals d xs with _ | ws
      · rw [hd, hm] at h; exact absurd h (by simp)
      · rcases List.mem_cons.mp hc with hc | hc
        · exact ⟨v, hc ▸ hd⟩
        · exact ih hm c hc

theorem mapVals_none_of_mem {d : Char → Option Nat} {l : List Char} {c : Char}
    (hc : c ∈ l) (hd : d c = none) : mapVals d l = none := by
  rcases hm : mapVals d l with _ | vs
  · rfl
  · obtain ⟨v, hv⟩ := mapVals_mem_some hm c hc
    rw [hv] at hd
    exact absurd hd (by simp)

/-! ### DecodeNormalizer (derefs) lemmas -/

theorem normGo_succ (s : List Char) (bp : Nat) (zc : Char) (fuel i : Nat)
    (inPad : Bool) (h : i < s.length) :
    normGo s bp zc (fuel + 1) i inPad =
      (if inPad ∧ s.get ⟨i, h⟩ = BASE_PADDING_CHAR then zc else s.get ⟨i, h⟩) ::
        normGo s bp zc fuel (wsSkip s i) (inPad || wsSkip s i == bp) := by
  rw [normGo, dif_pos h]

theorem normGo_stop (s : List Char) (bp : Nat) (zc : Char) (fuel i : Nat)
    (inPad : Bool) (h : ¬ i < s.length) :
    normGo s bp zc (fuel + 1) i inPad = [] := by
  rw [normGo, dif_neg h]

theorem wsCount_le (l : List Char) : wsCount l ≤ l.length := by
  induction l with
  | nil => simp [wsCount]
  | cons c cs ih =>
    rw [wsCount]
    by_cases h : isSpaceB c
    · rw [if_pos h]; simp; omega
    · rw [if_neg h]; omega

theorem wsCount_eq_zero {l : List Char} (h : ∀ c ∈ l, isSpaceB c = false) :
    wsCount l = 0 := by
  cases l with
  | nil => rfl
  | cons c cs =>
    rw [wsCount, if_neg]
    simp [h c (by simp)]

theorem wsCount_min :
    ∀ (l : List Char) (j : Nat) (hj : j < l.length),
      isSpaceB (l.get ⟨j, hj⟩) = false → wsCount l ≤ j := by
  intro l
  induction l with
  | nil => intro j hj; simp at hj
  | cons c cs ih =>
    intro j hj hw
    rw [wsCount]
    by_cases h : isSpaceB c
    · rw [if_pos h]
      cases j with
      | zero =>
        simp only [List.get] at hw
        rw [hw] at h
        exact absurd h (by simp)
      | succ j =>
        have := ih j (by simpa using hj) (by simpa using hw)
        omega
    · rw [if_neg h]
      omega

theorem wsSkip_gt (s : List Char) (i : Nat) : i < wsSkip s i := by
  unfold wsSkip
  omega

theorem wsSkip_le_length (s : List Char) (i : Nat) (h : i < s.length) :
    wsSkip s i ≤ s.length := by
  unfold wsSkip
  have := wsCount_le (s.drop (i + 1))
  simp only [List.length_drop] at this
  omega

/-- When no character of `s` is whitespace, the normalizer walks the
positions one by one and substitutes the zero code exactly at the padding
characters at positions at or past a nonzero `base_beginpad_`. -/
theorem normGo_clean (s : List Char) (bp : Nat) (zc : Char)
    (hws : ∀ c ∈ s, isSpaceB c = false) :
    ∀ (fuel i : Nat) (inPad : Bool), s.length ≤ i + fuel →
      (inPad = true ↔ (bp ≠ 0 ∧ bp ≤ i)) →
      normGo s bp zc fuel i inPad =
        (s.drop i).mapIdx (fun j c =>
          if bp ≠ 0 ∧ bp ≤ i + j ∧ c = BASE_PADDING_CHAR then zc else c) := by
  intro fuel
  induction fuel with
  | zero =>
    intro i inPad hfuel _
    have hd : s.drop i = [] := by
      apply List.eq_nil_of_length_eq_zero
      simp only [List.length_drop]
      omega
    rw [hd, normGo]
    rfl
  | succ fuel ih =>
    intro i inPad hfuel hpad
    by_cases h : i < s.length
    · rw [normGo_succ s bp zc fuel i inPad h,
        List.drop_eq_getElem_cons h, List.mapIdx_cons]
      have hskip : wsSkip s i = i + 1 := by
        unfold wsSkip
        rw [wsCount_eq_zero (fun c hc => hws c (List.mem_of_mem_drop hc))]
      have hcond : (inPad ∧ s.get ⟨i, h⟩ = BASE_PADDING_CHAR) ↔
          (bp ≠ 0 ∧ bp ≤ i + 0 ∧ s[i] = BASE_PADDING_CHAR) := by
        rw [List.get_eq_getElem, hpad]
        constructor
        · rintro ⟨⟨h1, h2⟩, h3⟩; exact ⟨h1, by omega, h3⟩
        · rintro ⟨h1, h2, h3⟩; exact ⟨⟨h1, by omega⟩, h3⟩
      rw [if_congr hcond rfl rfl, hskip]
      congr 1
      rw [ih (i + 1) (inPad || i + 1 == bp) (by omega) ?_]
      · congr 1
        funext j c
        have : i + 1 + j = i + (j + 1) := by omega
        rw [this]
      · simp only [Bool.or_eq_true, beq_iff_eq, hpad]
        omega
    · rw [normGo_stop s bp zc fuel i inPad h]
      have hd : s.drop i = [] := by
        apply List.eq_nil_of_length_eq_zero
        simp only [List.length_drop]
        omega
      rw [hd]
      rfl

/-- Closed form of the whole normalizer iteration on whitespace-free text. -/
theorem derefs_clean (s : List Char) (bp : Nat) (zc : Char)
    (hws : ∀ c ∈ s, isSpaceB c = false) :
    derefs s bp zc = s.mapIdx (fun j c =>
      if bp ≠ 0 ∧ bp ≤ j ∧ c = BASE_PADDING_CHAR then zc else c) := by
  unfold derefs
  rw [normGo_clean s bp zc hws s.length 0 false (by omega) (by simp)]
  simp

/-- Any non-whitespace character strictly before `base_beginpad_` reaches the
mapping table unmodified: it is dereferenced while `in_pad_` is still false
(if it is a padding character) or passed through as-is. -/
theorem normGo_mem (s : List Char) (bp : Nat) (zc : Char) (tgt : Nat)
    (htl : tgt < s.length) (htw : isSpaceB (s.get ⟨tgt, htl⟩) = false)
    (hsafe : tgt < bp ∨ s.get ⟨tgt, htl⟩ ≠ BASE_PADDING_CHAR) :
    ∀ (fuel i : Nat) (inPad : Bool), i ≤ tgt → s.length ≤ i + fuel →
      (inPad = true → bp ≤ i) →
      s.get ⟨tgt, htl⟩ ∈ normGo s bp zc fuel i inPad := by
  intro fuel
  induction fuel with
  | zero => intro i inPad hi hf _; omega
  | succ fuel ih =>
    intro i inPad hi hf hinv
    have hil : i < s.length := by omega
    rw [normGo_succ s bp zc fuel i inPad hil]
    by_cases heq : i = tgt
    · subst heq
      have hcond : ¬(inPad ∧ s.get ⟨i, hil⟩ = BASE_PADDING_CHAR) := by
        rintro ⟨hp, hpc⟩
        have hbp := hinv hp
        rcases hsafe with hs | hs
        · omega
        · exact hs hpc
      rw [if_neg hcond]
      exact List.mem_cons_self _ _
    · have hlt : i < tgt := by omega
      apply List.mem_cons_of_mem
      have hskip_le : wsSkip s i ≤ tgt := by
        unfold wsSkip
        have hlen : tgt - (i + 1) < (s.drop (i + 1)).length := by
          simp only [List.length_drop]
          omega
        have hg : (s.drop (i + 1)).get ⟨tgt - (i + 1), hlen⟩ = s.get ⟨tgt, htl⟩ := by
          simp only [List.get_eq_getElem, List.getElem_drop]
          congr 1
          omega
        have := wsCount_min (s.drop (i + 1)) (tgt - (i + 1)) hlen (by rw [hg]; exact htw)
        omega
      apply ih (wsSkip s i) (inPad || wsSkip s i == bp) hskip_le
      · have := wsSkip_gt s i
        omega
      · intro hp
        rcases Bool.or_eq_true_iff.mp hp with hp | hp
        · have := hinv hp
          have := wsSkip_gt s i
          omega
        · have : wsSkip s i = bp := by simpa using hp
          omega

/-- Restatement of `normGo_mem` for the whole iteration `derefs`. -/
theorem derefs_mem (s : List Char) (bp : Nat) (zc : Char) (tgt : Nat)
    (htl : tgt < s.length) (htw : isSpaceB (s.get ⟨tgt, htl⟩) = false)
    (hsafe : tgt < bp ∨ s.get ⟨tgt, htl⟩ ≠ BASE_PADDING_CHAR) :
    s.get ⟨tgt, htl⟩ ∈ derefs s bp zc := by
  unfold derefs
  exact normGo_mem s bp zc tgt htl htw hsafe s.length 0 false (by omega) (by omega)
    (by simp)

/-! ### Support lemmas for the round-trip theorem -/

theorem mapIdx_id_of {α : Type} (l : List α) (f : Nat → α → α)
    (h : ∀ (j : Nat) (hj : j < l.length), f j (l.get ⟨j, hj⟩) = l.get ⟨j, hj⟩) :
    l.mapIdx f = l := by
  apply List.ext_getElem
  · simp [List.length_mapIdx]
  · intro j h1 h2
    rw [List.getElem_mapIdx]
    have := h j h2
    simpa using this

theorem mapIdx_replicate_of {α : Type} (k : Nat) (a b : α) (f : Nat → α → α)
    (h : ∀ j, j < k → f j a = b) :
    (List.replicate k a).mapIdx f = List.replicate k b := by
  apply List.ext_getElem
  · simp [List.length_mapIdx]
  · intro j h1 h2
    rw [List.getElem_mapIdx]
    simp only [List.getElem_replicate]
    apply h
    simpa [List.length_mapIdx] using h1

theorem flatMap_congr_mem {α β : Type} {l : List α} {f g : α → List β}
    (h : ∀ a ∈ l, f a = g a) : l.flatMap f = l.flatMap g := by
  induction l with
  | nil => rfl
  | cons x xs ih =>
    rw [List.flatMap_cons, List.flatMap_cons, h x (by simp),
      ih (fun a ha => h a (by simp [ha]))]

theorem ceil_div_of_dvd {N y : Nat} (hN : 0 < N) (h : N ∣ y) :
    (y + N - 1) / N = y / N := by
  obtain ⟨k, hk⟩ := h
  subst hk
  have h1 : N * k + N - 1 = N * k + (N - 1) := by omega
  rw [h1, Nat.mul_add_div hN, Nat.div_eq_of_lt (by omega), Nat.mul_div_cancel_left _ hN]
  omega

theorem roundN_dvd (N x : Nat) (hN : 0 < N) : N ∣ (x + (N - x % N) % N) := by
  rcases Nat.eq_zero_or_pos (x % N) with h | h
  · rw [h, Nat.sub_zero, Nat.mod_self, Nat.add_zero]
    exact Nat.dvd_of_mod_eq_zero h
  · have hlt : x % N < N := Nat.mod_lt _ hN
    have hsub : (N - x % N) % N = N - x % N := Nat.mod_eq_of_lt (by omega)
    rw [hsub]
    have hx : x = N * (x / N) + x % N := (Nat.div_add_mod x N).symm
    have : x + (N - x % N) = N * (x / N) + N := by omega
    rw [this]
    exact ⟨x / N + 1, by ring⟩

theorem any_ne_zero_replicate (k : Nat) :
    (List.replicate k (0 : Nat)).any (fun x => x != 0) = false := by
  rw [List.any_eq_false]
  intro x hx
  rw [List.eq_of_mem_replicate hx]
  simp

theorem isSpaceB_pad_char : isSpaceB BASE_PADDING_CHAR = false := by decide

/-! ### Alphabet table facts (finite checks) -/

theorem base64_tab_inv : ∀ v, v < 64 → base64DecTab (base64EncTab v) = some v := by decide

theorem base64_tab_ne_pad : ∀ v, v < 64 → base64EncTab v ≠ BASE_PADDING_CHAR := by decide

theorem base64_tab_not_ws : ∀ v, v < 64 → isSpaceB (base64EncTab v) = false := by decide

theorem base32hex_tab_inv : ∀ v, v < 32 → base32hexDecTab (base32hexEncTab v) = some v := by
  decide

theorem base32hex_tab_ne_pad : ∀ v, v < 32 → base32hexEncTab v ≠ BASE_PADDING_CHAR := by
  decide

theorem base32hex_tab_not_ws : ∀ v, v < 32 → isSpaceB (base32hexEncTab v) = false := by
  decide

theorem base16_tab_inv : ∀ v, v < 16 → base16DecTab (base16EncTab v) = some v := by decide

theorem base16_tab_ne_pad : ∀ v, v < 16 → base16EncTab v ≠ BASE_PADDING_CHAR := by decide

theorem base16_tab_not_ws : ∀ v, v < 16 → isSpaceB (base16EncTab v) = false := by decide

/-! ### The generic encode/decode round-trip -/

/-- Decoding an encoder output restores the input buffer.  Stated for the
generic `BaseNTransformer`; the alphabet-table properties and the
per-encoding arithmetic facts about lengths and padding are hypotheses,
discharged at the three instantiations. -/
theorem decodeN_encodeN
    (N : Nat) (encTab : Nat → Char) (decTab : Char → Option Nat) (zc : Char)
    (hN : 0 < N)
    (htab : ∀ v, v < 2 ^ N → decTab (encTab v) = some v)
    (hpadc : ∀ v, v < 2 ^ N → encTab v ≠ BASE_PADDING_CHAR)
    (hwsc : ∀ v, v < 2 ^ N → isSpaceB (encTab v) = false)
    (hzc : encTab 0 = zc)
    (b : List Nat) (hb : ∀ x ∈ b, x < 256)
    (n pN L len pad : Nat)
    (hn : n = b.length)
    (hpN : pN = (N - n * 8 % N) % N)
    (hL : L = (n * 8 + pN) / N)
    (hlen : len = (if n * 8 % BITS_PER_GROUP N > 0
      then n * 8 + (BITS_PER_GROUP N - n * 8 % BITS_PER_GROUP N) else n * 8) / N)
    (hpadeq : pad = len - L)
    (hL1 : n ≠ 0 → 1 ≤ L)
    (hmaxp : pad ≤ MAX_PADDING_CHARS N)
    (hrub : roundUpByte (pad * N) = pN + pad * N)
    (hmod8 : (n * 8 + (pN + pad * N)) % 8 = 0)
    (hple : roundUpByte (pad * N) ≤ N * (pad + 1)) :
    decodeN N zc decTab (encodeN N encTab b) = .ok b := by
  have hstream_len : (b.flatMap (toBits 8)).length = n * 8 := by
    rw [flatMap_toBits_length, hn]
  have hpadded_len : (b.flatMap (toBits 8) ++ List.replicate pN false).length
      = n * 8 + pN := by
    rw [List.length_append, hstream_len, List.length_replicate]
  have hdvd : N ∣ (n * 8 + pN) := by
    rw [hpN]
    exact roundN_dvd N (n * 8) hN
  have hdvdp : N ∣ (b.flatMap (toBits 8) ++ List.replicate pN false).length := by
    rw [hpadded_len]
    exact hdvd
  have hchars_len : ((chunksN N (b.flatMap (toBits 8) ++ List.replicate pN false)).map
      (fun c => encTab (fromBits c))).length = L := by
    rw [List.length_map, chunksN_count hN, hpadded_len, ceil_div_of_dvd hN hdvd, hL]
  have hmem_chars : ∀ c ∈ (chunksN N (b.flatMap (toBits 8) ++ List.replicate pN false)).map
      (fun c => encTab (fromBits c)), ∃ v, v < 2 ^ N ∧ c = encTab v := by
    intro c hc
    obtain ⟨p, hp, hpc⟩ := List.mem_map.mp hc
    have hplen : p.length = N := chunksN_length_mem hN _ hdvdp p hp
    refine ⟨fromBits p, ?_, hpc.symm⟩
    have := fromBits_lt p
    rwa [hplen] at this
  have henc : encodeN N encTab b =
      (chunksN N (b.flatMap (toBits 8) ++ List.replicate pN false)).map
        (fun c => encTab (fromBits c)) ++ List.replicate pad BASE_PADDING_CHAR := by
    simp only [encodeN]
    rw [hstream_len, ← hpN, ← hn, ← hlen, hchars_len, ← hpadeq]
  set chars := (chunksN N (b.flatMap (toBits 8) ++ List.replicate pN false)).map
    (fun c => encTab (fromBits c)) with hchars_def
  rcases Nat.eq_zero_or_pos n with hn0 | hnpos
  · -- empty buffer: everything is empty
    have hb0 : b = [] := by
      apply List.eq_nil_of_length_eq_zero
      omega
    subst hb0
    have hpN0 : pN = 0 := by
      rw [hpN, hn0]
      simp
    have hL0 : L = 0 := by
      rw [hL, hn0, hpN0]
      simp
    have hlen0 : len = 0 := by
      rw [hlen, hn0]
      simp
    have hpad0 : pad = 0 := by omega
    have hchars0 : chars = [] := by
      apply List.eq_nil_of_length_eq_zero
      rw [hchars_len, hL0]
    rw [henc, hchars0, hpad0]
    simp only [List.replicate_zero, List.append_nil]
    rw [decodeN]
    have h1 : decodeProc N zc decTab [] [] = (none, []) := by
      simp only [decodeProc, List.reverse_nil, padScan]
      rw [if_neg (by simp [roundUpByte])]
      have hder : derefs [] ([] : List Char).length zc = [] := rfl
      rw [hder]
      simp only [mapVals]
      rw [if_neg (by simp)]
      simp [chunksN, chunksGo_nil, roundUpByte]
    rw [h1]
  · -- non-empty buffer
    have hLpos : 1 ≤ L := hL1 (by omega)
    have hcharsne : chars.reverse ≠ [] := by
      intro h
      have := congrArg List.length h
      rw [List.length_reverse, hchars_len] at this
      simp at this
      omega
    obtain ⟨c0, cs0, hrev⟩ := List.exists_cons_of_ne_nil hcharsne
    have hc0 : c0 ∈ chars := by
      rw [← List.mem_reverse, hrev]
      simp
    obtain ⟨v0, hv0, hc0v⟩ := hmem_chars c0 hc0
    have hc0ne : c0 ≠ BASE_PADDING_CHAR := hc0v ▸ hpadc v0 hv0
    have hc0ws : isSpaceB c0 = false := hc0v ▸ hwsc v0 hv0
    have hscan : padScan (MAX_PADDING_CHARS N) 0
        ((chars ++ List.replicate pad BASE_PADDING_CHAR).reverse)
        = some (pad, chars.reverse) := by
      rw [List.reverse_append, List.reverse_replicate,
        padScan_replicate (MAX_PADDING_CHARS N) chars.reverse pad 0 (by omega),
        Nat.zero_add, hrev, padScan_cons_stop hc0ne hc0ws]
    have hble : ¬ (N * (pad + 1) < roundUpByte (pad * N)) := not_lt.mpr hple
    have hws_input : ∀ c ∈ chars ++ List.replicate pad BASE_PADDING_CHAR,
        isSpaceB c = false := by
      intro c hc
      rcases List.mem_append.mp hc with hc | hc
      · obtain ⟨v, hv, hcv⟩ := hmem_chars c hc
        exact hcv ▸ hwsc v hv
      · rw [List.eq_of_mem_replicate hc]
        exact isSpaceB_pad_char
    have hderefs : derefs (chars ++ List.replicate pad BASE_PADDING_CHAR)
        (chars.reverse.length) zc = chars ++ List.replicate pad zc := by
      rw [List.length_reverse, derefs_clean _ _ _ hws_input, List.mapIdx_append]
      congr 1
      · apply mapIdx_id_of
        intro j hj
        rw [if_neg]
        rintro ⟨_, hle, _⟩
        omega
      · apply mapIdx_replicate_of
        intro j hj
        rw [if_pos]
        refine ⟨?_, by omega, rfl⟩
        rw [hchars_len]
        omega
    have hzcd : decTab zc = some 0 := by
      rw [← hzc]
      exact htab 0 (Nat.pos_pow_of_pos N (by omega))
    have hmapvals : mapVals decTab (chars ++ List.replicate pad zc) =
        some ((chunksN N (b.flatMap (toBits 8) ++ List.replicate pN false)).map fromBits
          ++ List.replicate pad 0) := by
      apply mapVals_append_some
      · apply mapVals_map_enc
        intro p hp
        have hplen : p.length = N := chunksN_length_mem hN _ hdvdp p hp
        apply htab
        have := fromBits_lt p
        rwa [hplen] at this
      · exact mapVals_replicate hzcd pad
    have hbits : ((chunksN N (b.flatMap (toBits 8) ++ List.replicate pN false)).map fromBits
        ++ List.replicate pad 0).flatMap (toBits N)
        = b.flatMap (toBits 8) ++ List.replicate (pN + pad * N) false := by
      rw [List.flatMap_append, List.flatMap_map, flatMap_toBits_replicate_zero]
      have h1 : (chunksN N (b.flatMap (toBits 8) ++ List.replicate pN false)).flatMap
          (fun a => toBits N (fromBits a))
          = (chunksN N (b.flatMap (toBits 8) ++ List.replicate pN false)).flatMap id := by
        apply flatMap_congr_mem
        intro p hp
        have hplen : p.length = N := chunksN_length_mem hN _ hdvdp p hp
        simp only [id_eq]
        exact toBits_fromBits_of_length hplen
      rw [h1, chunksN_join hN, List.append_assoc, ← List.replicate_add]
    have hbits_len : (b.flatMap (toBits 8) ++ List.replicate (pN + pad * N) false).length
        = n * 8 + (pN + pad * N) := by
      rw [List.length_append, hstream_len, List.length_replicate]
    have hz8 : 8 ∣ (pN + pad * N) := by omega
    have hraw : (chunksN 8 (b.flatMap (toBits 8)
        ++ List.replicate (pN + pad * N) false)).map fromBits
        = b ++ List.replicate ((pN + pad * N) / 8) 0 := by
      rw [chunksN_append (by omega) _ _ (by rw [hstream_len]; omega)]
      have hsf : b.flatMap (toBits 8) = (b.map (toBits 8)).flatMap id := by
        rw [List.flatMap_map]
        simp
      have h1 : chunksN 8 (b.flatMap (toBits 8)) = b.map (toBits 8) := by
        rw [hsf]
        apply chunksN_blocks (by omega)
        intro p hp
        obtain ⟨x, _, hxp⟩ := List.mem_map.mp hp
        rw [← hxp, toBits_length]
      have h2 : chunksN 8 (List.replicate (pN + pad * N) false)
          = List.replicate ((pN + pad * N) / 8) (List.replicate 8 false) := by
        conv_lhs => rw [← Nat.mul_div_cancel' hz8]
        exact chunksN_replicate_false _
      rw [h1, h2, List.map_append, List.map_map, List.map_replicate,
        fromBits_replicate_false]
      congr 1
      have : (fromBits ∘ toBits 8) = fun x => fromBits (toBits 8 x) := rfl
      rw [this]
      calc b.map (fun x => fromBits (toBits 8 x)) = b.map (fun x => x) := by
            apply List.map_congr_left
            intro x hx
            rw [fromBits_toBits]
            exact Nat.mod_eq_of_lt (hb x hx)
        _ = b := List.map_id _
    -- assemble the decode
    rw [henc, decodeN]
    have hproc : decodeProc N zc decTab
        (chars ++ List.replicate pad BASE_PADDING_CHAR) []
        = (none, b) := by
      simp only [decodeProc, hscan]
      rw [if_neg hble]
      simp only [hderefs, hmapvals, hbits, hbits_len]
      rw [if_neg (by omega)]
      rw [hraw, hrub]
      have hlap : (b ++ List.replicate ((pN + pad * N) / 8) 0).length
          - (pN + pad * N) / 8 = b.length := by
        rw [List.length_append, List.length_replicate]
        omega
      rw [hlap, List.drop_left, any_ne_zero_replicate]
      rw [if_neg (by simp)]
      rw [List.take_left]
    rw [hproc]
  
/-! ### Claim C1: round-trip for the three encodings -/

/-- C1: for every byte buffer `b` and each of the three encodings,
decoding the text produced by encoding `b` succeeds and returns `b`:
`decode(encode(b)) = b` for base64, base32hex and base16. -/
theorem c1_roundtrip (b : List Nat) (hb : ∀ x ∈ b, x < 256) :
    decodeBase64 (encodeBase64 b) = .ok b ∧
    decodeBase32Hex (encodeBase32Hex b) = .ok b ∧
    decodeHex (encodeHex b) = .ok b := by
  refine ⟨?_, ?_, ?_⟩
  · show decodeN 6 'A' base64DecTab (encodeN 6 base64EncTab b) = .ok b
    refine decodeN_encodeN 6 base64EncTab base64DecTab 'A' (by omega) ?_ ?_ ?_ (by decide)
      b hb b.length _ _ _ _ rfl rfl rfl rfl rfl ?_ ?_ ?_ ?_ ?_
    · intro v hv
      exact base64_tab_inv v (by
        have h64 : (2 : Nat) ^ 6 = 64 := by norm_num
        omega)
    · intro v hv
      exact base64_tab_ne_pad v (by
        have h64 : (2 : Nat) ^ 6 = 64 := by norm_num
        omega)
    · intro v hv
      exact base64_tab_not_ws v (by
        have h64 : (2 : Nat) ^ 6 = 64 := by norm_num
        omega)
    · intro hm
      omega
    · rw [show MAX_PADDING_CHARS 6 = 2 from by decide,
        show BITS_PER_GROUP 6 = 24 from by decide]
      split <;> omega
    · simp only [roundUpByte]
      rw [show BITS_PER_GROUP 6 = 24 from by decide]
      split <;> omega
    · rw [show BITS_PER_GROUP 6 = 24 from by decide]
      split <;> omega
    · simp only [roundUpByte]
      rw [show BITS_PER_GROUP 6 = 24 from by decide]
      split <;> omega
  · show decodeN 5 '0' base32hexDecTab (encodeN 5 base32hexEncTab b) = .ok b
    refine decodeN_encodeN 5 base32hexEncTab base32hexDecTab '0' (by omega) ?_ ?_ ?_
      (by decide) b hb b.length _ _ _ _ rfl rfl rfl rfl rfl ?_ ?_ ?_ ?_ ?_
    · intro v hv
      exact base32hex_tab_inv v (by
        have h32 : (2 : Nat) ^ 5 = 32 := by norm_num
        omega)
    · intro v hv
      exact base32hex_tab_ne_pad v (by
        have h32 : (2 : Nat) ^ 5 = 32 := by norm_num
        omega)
    · intro v hv
      exact base32hex_tab_not_ws v (by
        have h32 : (2 : Nat) ^ 5 = 32 := by norm_num
        omega)
    · intro hm
      omega
    · rw [show MAX_PADDING_CHARS 5 = 6 from by decide,
        show BITS_PER_GROUP 5 = 40 from by decide]
      split <;> omega
    · simp only [roundUpByte]
      rw [show BITS_PER_GROUP 5 = 40 from by decide]
      obtain ⟨q, r, hqr, hr⟩ : ∃ q r, b.length = 5 * q + r ∧ r < 5 :=
        ⟨b.length / 5, b.length % 5, by omega, by omega⟩
      rw [hqr]
      interval_cases r <;> (split <;> omega)
    · rw [show BITS_PER_GROUP 5 = 40 from by decide]
      split <;> omega
    · simp only [roundUpByte]
      rw [show BITS_PER_GROUP 5 = 40 from by decide]
      obtain ⟨q, r, hqr, hr⟩ : ∃ q r, b.length = 5 * q + r ∧ r < 5 :=
        ⟨b.length / 5, b.length % 5, by omega, by omega⟩
      rw [hqr]
      interval_cases r <;> (split <;> omega)
  · show decodeN 4 '0' base16DecTab (encodeN 4 base16EncTab b) = .ok b
    refine decodeN_encodeN 4 base16EncTab base16DecTab '0' (by omega) ?_ ?_ ?_
      (by decide) b hb b.length _ _ _ _ rfl rfl rfl rfl rfl ?_ ?_ ?_ ?_ ?_
    · intro v hv
      exact base16_tab_inv v (by
        have h16 : (2 : Nat) ^ 4 = 16 := by norm_num
        omega)
    · intro v hv
      exact base16_tab_ne_pad v (by
        have h16 : (2 : Nat) ^ 4 = 16 := by norm_num
        omega)
    · intro v hv
      exact base16_tab_not_ws v (by
        have h16 : (2 : Nat) ^ 4 = 16 := by norm_num
        omega)
    · intro hm
      omega
    · rw [show MAX_PADDING_CHARS 4 = 0 from by decide,
        show BITS_PER_GROUP 4 = 8 from by decide]
      split <;> omega
    · simp only [roundUpByte]
      rw [show BITS_PER_GROUP 4 = 8 from by decide]
      split <;> omega
    · rw [show BITS_PER_GROUP 4 = 8 from by decide]
      split <;> omega
    · simp only [roundUpByte]
      rw [show BITS_PER_GROUP 4 = 8 from by decide]
      split <;> omega

/-- Witness for C1 at a concrete buffer. -/
theorem c1_roundtrip_witness :
    decodeBase64 (encodeBase64 [102, 0, 255]) = .ok [102, 0, 255] ∧
    decodeBase32Hex (encodeBase32Hex [102, 0, 255]) = .ok [102, 0, 255] ∧
    decodeHex (encodeHex [102, 0, 255]) = .ok [102, 0, 255] :=
  c1_roundtrip [102, 0, 255] (by decide)

/-! ### Claim C2: the canonical-padding check and truncation -/

/-- C2: whenever decode gets past the padding checks and the character
mapping (producing the raw decoded buffer), it computes
`padbytes = roundUpByte(padchars * BitsPerChunk) / 8`, fails with the
non-canonical-padding error exactly when one of the last `padbytes` raw
bytes is nonzero, and otherwise returns the raw buffer truncated by
`padbytes`. -/
theorem c2_canonical_check (N : Nat) (zc : Char) (decTab : Char → Option Nat)
    (input : List Char) (padchars : Nat) (rest : List Char) (vs : List Nat)
    (h1 : padScan (MAX_PADDING_CHARS N) 0 input.reverse = some (padchars, rest))
    (h2 : roundUpByte (padchars * N) ≤ N * (padchars + 1))
    (h3 : mapVals decTab (derefs input rest.length zc) = some vs)
    (h4 : (vs.flatMap (toBits N)).length % 8 = 0) :
    (decodeN N zc decTab input = .error .nonCanonicalPadding ↔
      (((chunksN 8 (vs.flatMap (toBits N))).map fromBits).drop
        (((chunksN 8 (vs.flatMap (toBits N))).map fromBits).length
          - roundUpByte (padchars * N) / 8)).any (fun x => x != 0) = true) ∧
    ((((chunksN 8 (vs.flatMap (toBits N))).map fromBits).drop
        (((chunksN 8 (vs.flatMap (toBits N))).map fromBits).length
          - roundUpByte (padchars * N) / 8)).any (fun x => x != 0) = false →
      decodeN N zc decTab input = .ok
        (((chunksN 8 (vs.flatMap (toBits N))).map fromBits).take
          (((chunksN 8 (vs.flatMap (toBits N))).map fromBits).length
            - roundUpByte (padchars * N) / 8))) := by
  rw [decodeN]
  simp only [decodeProc, h1]
  rw [if_neg (not_lt.mpr h2)]
  simp only [h3]
  rw [if_neg (by omega)]
  by_cases hany : (((chunksN 8 (vs.flatMap (toBits N))).map fromBits).drop
      (((chunksN 8 (vs.flatMap (toBits N))).map fromBits).length
        - roundUpByte (padchars * N) / 8)).any (fun x => x != 0) = true
  · rw [if_pos hany]
    refine ⟨⟨fun _ => hany, fun _ => rfl⟩, fun hf => ?_⟩
    rw [hany] at hf
    exact absurd hf (by simp)
  · rw [if_neg hany]
    refine ⟨⟨fun h => ?_, fun h => absurd h hany⟩, fun _ => rfl⟩
    exact absurd h (by simp)

/-- Witness for C2 at a concrete non-canonical base64 input. -/
theorem c2_canonical_check_witness :
    decodeN 6 'A' base64DecTab "Zh==".toList = .error .nonCanonicalPadding := by
  have h := c2_canonical_check 6 'A' base64DecTab "Zh==".toList 2
    ['h', 'Z'] [25, 33, 0, 0] (by decide) (by decide) (by decide) (by decide)
  exact h.1.mpr (by decide)

/-! ### Claim C4: excess padding -/

/-- C4: when the trailing run of the input (scanned from the end, skipping
whitespace) holds more than `MAX_PADDING_CHARS` padding characters, decode
fails with the excess-padding error; and `MAX_PADDING_CHARS = 2` for base64
(`BitsPerChunk = 6`), so base64 text with 3 trailing `=` is rejected. -/
theorem c4_excess_padding (N : Nat) (zc : Char) (decTab : Char → Option Nat)
    (input : List Char)
    (h : MAX_PADDING_CHARS N <
      (input.reverse.takeWhile
        (fun c => c == BASE_PADDING_CHAR || isSpaceB c)).count BASE_PADDING_CHAR) :
    decodeN N zc decTab input = .error .excessPadding ∧
    MAX_PADDING_CHARS 6 = 2 := by
  constructor
  · have hnone : padScan (MAX_PADDING_CHARS N) 0 input.reverse = none :=
      (padScan_none_iff (MAX_PADDING_CHARS N) input.reverse 0 (by omega)).mpr (by omega)
    rw [decodeN]
    simp only [decodeProc, hnone]
  · decide

/-- Witness for C4: base64 text with 3 trailing padding characters. -/
theorem c4_excess_padding_witness :
    decodeN 6 'A' base64DecTab "Zm9v===".toList = .error .excessPadding :=
  (c4_excess_padding 6 'A' base64DecTab "Zm9v===".toList (by decide)).1

/-! ### Claim C5: the padding-length consistency check -/

/-- C5: with `padchars` trailing padding characters counted (scan
successful), decode computes `padbits` as `padchars * BitsPerChunk` rounded
up to the next multiple of 8 — the last three conjuncts pin down that
rounding — and fails with the invalid-padding-length error exactly when
`padbits > BitsPerChunk * (padchars + 1)`. -/
theorem c5_invalid_padding_length (N : Nat) (zc : Char)
    (decTab : Char → Option Nat) (input : List Char) (padchars : Nat)
    (rest : List Char)
    (h1 : padScan (MAX_PADDING_CHARS N) 0 input.reverse = some (padchars, rest)) :
    (decodeN N zc decTab input = .error .invalidPaddingLength ↔
      N * (padchars + 1) < roundUpByte (padchars * N)) ∧
    8 ∣ roundUpByte (padchars * N) ∧
    padchars * N ≤ roundUpByte (padchars * N) ∧
    roundUpByte (padchars * N) < padchars * N + 8 := by
  refine ⟨?_, ⟨(padchars * N + 7) / 8, by rw [roundUpByte]; ring⟩,
    by rw [roundUpByte]; omega, by rw [roundUpByte]; omega⟩
  by_cases hc : N * (padchars + 1) < roundUpByte (padchars * N)
  · constructor
    · intro _; exact hc
    · intro _
      rw [decodeN]
      simp only [decodeProc, h1]
      rw [if_pos hc]
  · constructor
    · intro habs
      rw [decodeN] at habs
      simp only [decodeProc, h1] at habs
      rw [if_neg hc] at habs
      rcases hm : mapVals decTab (derefs input rest.length zc) with _ | vs
      · rw [hm] at habs
        simp at habs
      · simp only [hm] at habs
        by_cases h8 : (vs.flatMap (toBits N)).length % 8 ≠ 0
        · rw [if_pos h8] at habs
          simp at habs
        · rw [if_neg h8] at habs
          by_cases hany : (((chunksN 8 (vs.flatMap (toBits N))).map fromBits).drop
              (((chunksN 8 (vs.flatMap (toBits N))).map fromBits).length
                - roundUpByte (padchars * N) / 8)).any (fun x => x != 0) = true
          · rw [if_pos hany] at habs
            simp at habs
          · rw [if_neg hany] at habs
            simp at habs
    · intro h; exact absurd h hc

/-- Witness for C5: two trailing `=` in base32hex cannot match any byte
boundary (`padbits = 16 > 5 * 3 = 15`). -/
theorem c5_invalid_padding_length_witness :
    decodeN 5 '0' base32hexDecTab "000000==".toList = .error .invalidPaddingLength := by
  have h := c5_invalid_padding_length 5 '0' base32hexDecTab "000000==".toList 2
    (List.replicate 6 '0') (by decide)
  exact h.1.mpr (by decide)

/-! ### Claim C6: invalid characters -/

/-- C6 counterexample: an input containing a character outside the alphabet
(not padding, not whitespace) need not fail with the invalid-character
error — with three trailing `=` the excess-padding check fires first. -/
theorem c6_counterexample :
    ('$' ∈ "$===".toList ∧ base64DecTab '$' = none ∧
      '$' ≠ BASE_PADDING_CHAR ∧ isSpaceB '$' = false) ∧
    decodeN 6 'A' base64DecTab "$===".toList = .error .excessPadding ∧
    DecodeError.excessPadding ≠ DecodeError.invalidCharacter := by
  exact ⟨by decide, by decide, by decide⟩

/-- C6 amended: an input containing a character outside the alphabet (not
padding, not whitespace) always fails; it fails with the invalid-character
error provided the trailing-padding checks pass (otherwise the padding error
takes precedence). -/
theorem c6_amended (N : Nat) (zc : Char) (decTab : Char → Option Nat)
    (input : List Char) (padchars : Nat) (rest : List Char) (c : Char)
    (h1 : padScan (MAX_PADDING_CHARS N) 0 input.reverse = some (padchars, rest))
    (h2 : roundUpByte (padchars * N) ≤ N * (padchars + 1))
    (hc : c ∈ input) (hcd : decTab c = none)
    (hcp : c ≠ BASE_PADDING_CHAR) (hcw : isSpaceB c = false) :
    decodeN N zc decTab input = .error .invalidCharacter := by
  obtain ⟨pre, hsplit, hprechars⟩ := padScan_consumed _ _ _ _ _ h1
  have hinput : input = rest.reverse ++ pre.reverse := by
    have := congrArg List.reverse hsplit
    simpa [List.reverse_append] using this
  subst hinput
  have hcrest : c ∈ rest.reverse := by
    rcases List.mem_append.mp hc with h | h
    · exact h
    · rcases hprechars c (List.mem_reverse.mp h) with h' | h'
      · exact absurd h' hcp
      · rw [hcw] at h'
        exact absurd h' (by simp)
  obtain ⟨⟨j, hj⟩, hjc⟩ := List.mem_iff_get.mp hcrest
  have hjlt : j < rest.length := by simpa using hj
  have hjin : j < (rest.reverse ++ pre.reverse).length := by
    simp
    omega
  have hgetj : (rest.reverse ++ pre.reverse).get ⟨j, hjin⟩ = c := by
    simp only [List.get_eq_getElem]
    rw [List.getElem_append_left (by simpa using hjlt)]
    simpa using hjc
  have hmem := derefs_mem (rest.reverse ++ pre.reverse) rest.length zc j hjin
    (by rw [hgetj]; exact hcw) (Or.inl hjlt)
  rw [hgetj] at hmem
  have hmv : mapVals decTab (derefs (rest.reverse ++ pre.reverse) rest.length zc) = none :=
    mapVals_none_of_mem hmem hcd
  rw [decodeN]
  simp only [decodeProc, h1]
  rw [if_neg (not_lt.mpr h2)]
  simp only [hmv]

/-- Witness for the amended C6. -/
theorem c6_amended_witness :
    decodeN 6 'A' base64DecTab "Z$==".toList = .error .invalidCharacter :=
  c6_amended 6 'A' base64DecTab "Z$==".toList 2 ['$', 'Z'] '$'
    (by decide) (by decide) (by decide) (by decide) (by decide) (by decide)

/-! ### Claim C9: interior padding characters are rejected -/

/-- C9: a padding character followed (later in the text) by a
non-padding, non-whitespace character is not part of the trailing run; the
normalizer passes it through unsubstituted and unskipped, so decode fails
with some error. -/
theorem c9_interior_padding (N : Nat) (zc : Char) (decTab : Char → Option Nat)
    (input : List Char) (p q : Nat) (hq : q < input.length) (hpq : p < q)
    (hp : input.get ⟨p, by omega⟩ = BASE_PADDING_CHAR)
    (hqc : input.get ⟨q, hq⟩ ≠ BASE_PADDING_CHAR)
    (hqw : isSpaceB (input.get ⟨q, hq⟩) = false)
    (hdp : decTab BASE_PADDING_CHAR = none) :
    ∃ e, decodeN N zc decTab input = .error e := by
  rcases hscan : padScan (MAX_PADDING_CHARS N) 0 input.reverse with _ | ⟨pc, rest⟩
  · exact ⟨.excessPadding, by rw [decodeN]; simp only [decodeProc, hscan]⟩
  · by_cases hble : N * (pc + 1) < roundUpByte (pc * N)
    · refine ⟨.invalidPaddingLength, ?_⟩
      rw [decodeN]
      simp only [decodeProc, hscan]
      rw [if_pos hble]
    · obtain ⟨pre, hsplit, hprechars⟩ := padScan_consumed _ _ _ _ _ hscan
      have hinput : input = rest.reverse ++ pre.reverse := by
        have := congrArg List.reverse hsplit
        simpa [List.reverse_append] using this
      subst hinput
      have hqlt : q < rest.length := by
        by_contra hge
        push_neg at hge
        have hmemq : (rest.reverse ++ pre.reverse).get ⟨q, hq⟩ ∈ pre.reverse := by
          simp only [List.get_eq_getElem]
          rw [List.getElem_append_right (by simpa using hge)]
          exact List.getElem_mem _
        rcases hprechars _ (List.mem_reverse.mp hmemq) with h' | h'
        · exact hqc h'
        · rw [hqw] at h'
          exact absurd h' (by simp)
      have hpin : p < (rest.reverse ++ pre.reverse).length := by omega
      have hmem := derefs_mem (rest.reverse ++ pre.reverse) rest.length zc p hpin
        (by rw [hp]; exact isSpaceB_pad_char) (Or.inl (by omega))
      rw [hp] at hmem
      refine ⟨.invalidCharacter, ?_⟩
      rw [decodeN]
      simp only [decodeProc, hscan]
      rw [if_neg hble]
      simp only [mapVals_none_of_mem hmem hdp]

/-- Witness for C9. -/
theorem c9_interior_padding_witness :
    ∃ e, decodeN 6 'A' base64DecTab "Z=AA".toList = .error e :=
  c9_interior_padding 6 'A' base64DecTab "Z=AA".toList 1 2
    (by decide) (by decide) (by decide) (by decide) (by decide) (by decide)

/-! ### Claim C7: whitespace handling (code divergence) -/

/-- C7: trailing whitespace after the padding is accepted
(`decodeBase64 "Zm8=\n" = decodeBase64 "Zm8="`), but whitespace inserted at
the interior position between the last data character and the first padding
character makes the normalizer miss `base_beginpad_` (the whitespace-skip in
`operator++` jumps over it, source lines 150-157), so the `=` reaches the
mapping table raw and decode fails instead of returning the same result. -/
theorem c7_code_divergence :
    decodeBase64 "Zm8=".toList = .ok [0x66, 0x6F] ∧
    decodeBase64 "Zm8 =".toList = .error .invalidCharacter ∧
    decodeBase64 "Zm8=\n".toList = .ok [0x66, 0x6F] := by
  exact ⟨by decide, by decide, by decide⟩

/-! ### Claim C8: concrete vectors -/

/-- C8: the spec's concrete vectors. -/
theorem c8_vectors :
    encodeBase64 [] = "".toList ∧
    encodeBase64 [0x66] = "Zg==".toList ∧
    decodeBase64 "Zg==".toList = .ok [0x66] ∧
    encodeHex [0xDE, 0xAD, 0xBE, 0xEF] = "DEADBEEF".toList ∧
    decodeHex "deadbeef".toList = .ok [0xDE, 0xAD, 0xBE, 0xEF] := by
  exact ⟨by decide, by decide, by decide, by decide, by decide⟩

/-! ### Claim C10: decode is not atomic in its out-parameter -/

/-- C10: on an input rejected by the canonical-padding check, the caller's
result buffer has already been overwritten with the decoded-but-rejected raw
bytes when the error is raised (`result.assign` at source lines 269-272 runs
before the check at lines 281-287). -/
theorem c10_non_atomic :
    decodeProc 6 'A' base64DecTab "Zh==".toList [9, 9] =
      (some .nonCanonicalPadding, [0x66, 0x10, 0x00]) ∧
    ([0x66, 0x10, 0x00] : List Nat) ≠ [9, 9] := by
  exact ⟨by decide, by decide⟩

/-! ### Claim C3: encode totality and length law -/

/-- Helper: the length of the encoder output is exactly the `len` computed
at source lines 221-225 (encode is total by construction: it is a plain
function into `List Char` and reaches the `return` unconditionally). -/
theorem encodeN_length (N : Nat) (encTab : Nat → Char) (b : List Nat)
    (hN : 0 < N) (len : Nat)
    (hlen : len = (if b.length * 8 % BITS_PER_GROUP N > 0
      then b.length * 8 + (BITS_PER_GROUP N - b.length * 8 % BITS_PER_GROUP N)
      else b.length * 8) / N)
    (hLl : (b.length * 8 + (N - b.length * 8 % N) % N) / N ≤ len) :
    (encodeN N encTab b).length = len := by
  simp only [encodeN]
  rw [← hlen, List.length_append, List.length_replicate, List.length_map,
    chunksN_count hN, List.length_append, List.length_replicate,
    flatMap_toBits_length, ceil_div_of_dvd hN (roundN_dvd N (b.length * 8) hN)]
  omega

/-- C3: `encode` never fails (it is a total function), and its output length
is `ceil(len(b) * 8 / BitsPerGroup) * CharsPerGroup` — hence always a
multiple of `CharsPerGroup` (4, 8 and 2 respectively) — and for base64 it
equals `ceil(len(b) / 3) * 4`. -/
theorem c3_encode_length (b : List Nat) :
    (encodeBase64 b).length = (b.length * 8 + 23) / 24 * 4 ∧
    (encodeBase32Hex b).length = (b.length * 8 + 39) / 40 * 8 ∧
    (encodeHex b).length = (b.length * 8 + 7) / 8 * 2 ∧
    (encodeBase64 b).length % 4 = 0 ∧
    (encodeBase32Hex b).length % 8 = 0 ∧
    (encodeHex b).length % 2 = 0 ∧
    (encodeBase64 b).length = (b.length + 2) / 3 * 4 := by
  have h64 : (encodeBase64 b).length = (b.length * 8 + 23) / 24 * 4 := by
    show (encodeN 6 base64EncTab b).length = _
    apply encodeN_length 6 base64EncTab b (by omega)
    · rw [show BITS_PER_GROUP 6 = 24 from by decide]
      split <;> omega
    · omega
  have h32 : (encodeBase32Hex b).length = (b.length * 8 + 39) / 40 * 8 := by
    show (encodeN 5 base32hexEncTab b).length = _
    apply encodeN_length 5 base32hexEncTab b (by omega)
    · rw [show BITS_PER_GROUP 5 = 40 from by decide]
      split <;> omega
    · omega
  have h16 : (encodeHex b).length = (b.length * 8 + 7) / 8 * 2 := by
    show (encodeN 4 base16EncTab b).length = _
    apply encodeN_length 4 base16EncTab b (by omega)
    · rw [show BITS_PER_GROUP 4 = 8 from by decide]
      split <;> omega
    · omega
  refine ⟨h64, h32, h16, ?_, ?_, ?_, ?_⟩
  · rw [h64]; omega
  · rw [h32]; omega
  · rw [h16]; omega
  · rw [h64]; omega

end Isc
